import Mathlib

/-!
Verification of the FHIR model generator (`generate.py`).

This file gives a shallow embedding of the compiler pass of the repository:
`item_from_structure_definition` (path-tree building, choice-type handling,
superclass resolution, dependency collection) and `write_items` (the
recursive dependency-closure driver), together with theorems settling the
specification claims about them.

Modelling conventions:
* Python strings are Lean `String`s; `str.split(sep)` for the one-character
  separators used by the code is `splitChar`, `str.replace('[x]', '')` is
  `stripX`, both implemented by structural recursion on the character list
  so that concrete executions reduce in the kernel.
* Python `OrderedDict`s are association lists (`insertOD` preserves the
  position of an existing key, as dict assignment does).
* Python object identity for the attribute dictionaries (the aliasing of a
  composite descriptor's `attributes` with the attribute node's children)
  is made explicit with a heap: every attribute mapping lives at a numeric
  address in `CState.heap`, and both the descriptor and the node store the
  address.  Two views of one mutable structure are two equal addresses.
* Python `set`s are duplicate-free lists built with `setInsert`; only their
  membership is ever used by the code.
* Exceptions are an `Except Err` result; the distinct `Err` constructors
  mirror the error taxonomy of the spec (lookup, configuration, schema
  resolution, validation) plus the concrete Python `KeyError`/`IndexError`/
  `TypeError` slips of the source.
* The unbounded recursion of `write_items` is embedded with explicit fuel
  (`wiStep fuel`); `none` means the fuel bound was hit.  The adequacy
  theorem shows a fuel of `writeFuelBound` always suffices, which is the
  termination statement for the Python recursion.
* `list.sort()` on strings is `pySort`, an insertion sort over `strLe`,
  the code-point lexicographic order Python uses on strings.  Sorting by a
  total order has a unique result, so any correct sort models `.sort()`.
-/

/-- One character of lookahead split, modelling Python `str.split(c)` for a
one-character separator: `splitChar c l` cuts `l` at every occurrence of
`c` (so the empty list yields `[[]]`, as `''.split(c) == ['']`). -/
def splitChar (sep : Char) : List Char → List (List Char)
  | [] => [[]]
  | c :: rest =>
    let r := splitChar sep rest
    if c = sep then [] :: r
    else
      match r with
      | [] => [[c]]
      | h :: t => (c :: h) :: t

def dotChar : Char := '.'

def slashChar : Char := '/'

/-- `stripX l` models Python `str.replace('[x]', '')`: scan left to right,
removing every non-overlapping occurrence of the three characters `[x]`. -/
def stripX : List Char → List Char
  | a :: b :: c :: rest =>
    if a = '[' ∧ b = 'x' ∧ c = ']' then stripX rest
    else a :: stripX (b :: c :: rest)
  | l => l

/-- Python `s[0].upper() + s[1:]` (total here; every call site guards the
empty string, where Python raises `IndexError`). -/
def capFirst (s : String) : String :=
  match s.data with
  | [] => ""
  | c :: cs => String.mk (c.toUpper :: cs)

/-- Python `s.split(sep)` as a list of strings, one-character separator. -/
def pySplit (sep : Char) (s : String) : List String :=
  (splitChar sep s.data).map (fun l => String.mk l)

/-- The `[-1]` element of a Python `split` result (always non-empty). -/
def lastSegOf (l : List String) : String := l.getLastD ""

/-- Final path segment of a `/`-separated reference, Python
`s.split('/')[-1]`. -/
def lastSlashSeg (s : String) : String := lastSegOf (pySplit slashChar s)

/-- The path of an element record after `path.split('.')[1:]`, i.e. with
the leading definition-name segment stripped. -/
def pathSegs (p : String) : List String := (pySplit dotChar p).tail

/-- Python `set.add`: append only when the element is new.  Membership is
the only set operation the code performs. -/
def setInsert (l : List String) (x : String) : List String :=
  if x ∈ l then l else l ++ [x]

/-- Assignment into a Python (ordered) dict: replace in place when the key
exists, append otherwise. -/
def insertOD {α : Type} (m : List (String × α)) (k : String) (v : α) :
    List (String × α) :=
  if m.any (fun e => e.fst == k) then
    m.map (fun e => if e.fst == k then (k, v) else e)
  else m ++ [(k, v)]

/-- Dict lookup. -/
def lookupOD {α : Type} (m : List (String × α)) (k : String) : Option α :=
  (m.find? (fun e => e.fst == k)).map (fun e => e.snd)

/-- Code-point lexicographic comparison on character lists, the order
Python's `<=` uses on strings. -/
def strLeAux : List Char → List Char → Bool
  | [], _ => true
  | _ :: _, [] => false
  | a :: as, b :: bs =>
    if a.val.toNat < b.val.toNat then true
    else if b.val.toNat < a.val.toNat then false
    else strLeAux as bs

def strLe (a b : String) : Bool := strLeAux a.data b.data

/-- One insertion step of the stable ascending sort. -/
def pyInsert (x : String) : List String → List String
  | [] => [x]
  | y :: ys => if strLe x y then x :: y :: ys else y :: pyInsert x ys

/-- Python `list.sort()` on strings (ascending code-point lexicographic). -/
def pySort : List String → List String
  | [] => []
  | x :: xs => pyInsert x (pySort xs)

-- ## Data model

/-- The error taxonomy: the spec's `LookupError`, `ConfigurationError`,
`SchemaResolutionError`, `ValidationError`, plus the raw `KeyError` /
`IndexError` / `TypeError` the Python code can raise on malformed input. -/
inductive Err where
  | lookupError (name : String)
  | configurationError (name : String)
  | schemaResolutionError
  | validationError
  | keyError (key : String)
  | indexError
  | typeError
deriving DecidableEq, Repr

/-- A `<type>` child of an element record: a code and, for `Reference`,
an optional bound profile URL (`getValue(type_, 'code')` /
`getValue(type_, 'profile')`, `none` when absent). -/
structure TypeRef where
  code : Option String
  profile : Option String
deriving DecidableEq, Repr

/-- One flat `<element>` record of a differential, as the XML collaborator
hands it over: every field is `getValue(e, tag)`, `none` when missing. -/
structure ElementDef where
  path : Option String
  definition : Option String := none
  min : Option String := none
  max : Option String := none
  types : List TypeRef := []
  nameReference : Option String := none
  contentReference : Option String := none
deriving DecidableEq, Repr

/-- A structure definition: its `url`, the DSTU2 `base` value, the STU3
`baseDefinition` value, and the differential's flat element records. -/
structure SD where
  url : Option String := none
  base : Option String := none
  baseDefinition : Option String := none
  elements : List ElementDef := []
deriving DecidableEq, Repr

/-- The compiled `type` entry of an attribute: Python stores either a
single value (a code string, or `None` when the code attribute was
missing) or, for a choice type, the list of codes. -/
inductive AttrType where
  | one (t : Option String)
  | many (ts : List (Option String))
deriving DecidableEq, Repr

/-- The `properties` dict compiled for one attribute.  `childAddr` is the
heap address of its `attributes` mapping, present exactly when the Python
dict has an `'attributes'` key (inline composites). -/
structure Props where
  name : String
  min : Option String
  max : Option String
  type : AttrType
  childAddr : Option Nat := none
deriving DecidableEq, Repr

/-- A synthesized inline composite (`implicit_classes` entry): class name,
the generic composite marker it refines, and the heap address of its
`attributes` mapping — the same address the introducing attribute node
stores, which is the Python aliasing of one dict from two places. -/
structure IC where
  name : String
  superclass : String
  attrsAddr : Nat
deriving DecidableEq, Repr

/-- The root item dict (`root`): url, name, superclass, the heap address
of the top-level attribute mapping, the two required-type sets, and the
docstring.  `docstring` keeps the raw definition text; `textwrap.wrap`
only re-flows whitespace and is rendering detail outside the claims. -/
structure Item where
  url : Option String
  name : String
  superclass : String
  attrsAddr : Nat
  required_basic_types : List String
  required_complex_types : List String
  docstring : Option String := none
deriving DecidableEq, Repr

/-- Full compilation state for one definition: the root item, the heap of
attribute mappings (address `0` is the root's `attributes`), the ordered
`implicit_classes` mapping and the `dependencies` set. -/
structure CState where
  item : Item
  heap : List (List (String × Props))
  ics : List (String × IC)
  deps : List String
deriving DecidableEq, Repr

/-- Read the attribute mapping at a heap address (always valid in real
executions; defaults to the empty mapping). -/
def heapGet (heap : List (List (String × Props))) (a : Nat) :
    List (String × Props) :=
  heap.getD a []

-- ## item_from_structure_definition

/-- The `for type_ in e.findall('type')` loop: classify every code against
the primitive and (else-if) complex catalogs, and rewrite a `Reference`
code to `Reference(reference="<profile>")` — Python formats a missing
profile as the text `None`.  Returns the compiled type list and the
locally collected basic-type, complex-type and dependency additions (the
caller merges them into the root's sets with `setInsert`, which yields the
same sets as Python's in-place `add` calls). -/
def resolveTypes (prim complex : List String) :
    List TypeRef → List (Option String) × List String × List String × List String
  | [] => ([], [], [], [])
  | tr :: rest =>
    let r := resolveTypes prim complex rest
    match tr.code with
    | none => (none :: r.1, r.2)
    | some s =>
      let t : Option String :=
        if s = "Reference" then
          some (("Reference(reference=\"") ++ tr.profile.getD ("None") ++ ("\")"))
        else some s
      let rbt := if s ∈ prim then [s] else []
      let rct := if ¬ s ∈ prim ∧ s ∈ complex then [s] else []
      (t :: r.1, rbt ++ r.2.1, rct ++ r.2.2.1, rct ++ r.2.2.2)

/-- Wait-free helper for `resolveTypes` output list. -/
def typesOut (prim complex : List String) (trs : List TypeRef) :
    List (Option String) :=
  (resolveTypes prim complex trs).1

/-- The `try/except` ladder choosing the attribute's compiled type: a list
when more than one code, the single code when exactly one, otherwise the
DSTU2 `nameReference` (capitalized; an empty value raises `IndexError`
inside the `try` and falls through) and finally the STU3
`contentReference` (last dotted segment, capitalized), failing when no
fallback applies. -/
def resolveAttrType (e : ElementDef) (ts : List (Option String)) :
    Except Err AttrType :=
  match ts with
  | [t] => Except.ok (AttrType.one t)
  | _ :: _ :: _ => Except.ok (AttrType.many ts)
  | [] =>
    let content : Except Err AttrType :=
      match e.contentReference with
      | some cr =>
        let s := lastSegOf (pySplit dotChar cr)
        match s.data with
        | [] => Except.error Err.indexError
        | _ :: _ => Except.ok (AttrType.one (some (capFirst s)))
      | none => Except.error Err.schemaResolutionError
    match e.nameReference with
    | some nr =>
      match nr.data with
      | [] => content
      | _ :: _ => Except.ok (AttrType.one (some (capFirst nr)))
    | none => content

/-- The parent walk `for component in path[:-1]: parent =
parent['attributes'][component]`, returning the heap address of the final
parent's attribute mapping.  A missing component or a component without
children is the Python `KeyError`. -/
def walkPath (heap : List (List (String × Props))) :
    Nat → List String → Except Err Nat
  | addr, [] => Except.ok addr
  | addr, c :: cs =>
    match lookupOD (heapGet heap addr) c with
    | none => Except.error (Err.keyError c)
    | some props =>
      match props.childAddr with
      | none => Except.error (Err.keyError ("attributes"))
      | some a => walkPath heap a cs

/-- Python `attr = path[-1].replace('[x]', '')`, then the reserved-word
escape, which the code applies exactly to `def` and `class`. -/
def pyAttrName (seg : String) : String :=
  let a := String.mk (stripX seg.data)
  if a = "def" ∨ a = "class" then a ++ ("_") else a

/-- Processing of one element record, the body of the
`for e in differential.iter('element')` loop. -/
def processElement (prim complex : List String) (name : String) (sd : SD)
    (st : CState) (e : ElementDef) : Except Err CState :=
  match e.path with
  | none => Except.error Err.typeError
  | some p =>
    let segs := pathSegs p
    if segs = [] then
      -- Root element: docstring, then superclass resolution over the two
      -- dialects (DSTU2 `base`, then STU3 `baseDefinition`).
      match e.definition with
      | none => Except.error Err.typeError
      | some d =>
        let item₁ := { st.item with docstring := some d }
        let sc₀ := sd.base.getD ("")
        let sc₁ := if sc₀ = "" then sd.baseDefinition.getD ("FHIRBase") else sc₀
        if sc₁ = "FHIRBase" ∧ name ≠ "Resource" then
          Except.error (Err.configurationError name)
        else
          let sc₂ := lastSlashSeg sc₁
          let item₂ := { item₁ with superclass := sc₂ }
          let deps' :=
            if sc₂ ∈ prim ∨ sc₂ = "object" then st.deps
            else setInsert st.deps sc₂
          Except.ok { st with item := item₂, deps := deps' }
    else
      let attr := pyAttrName (lastSegOf segs)
      match walkPath st.heap 0 segs.dropLast with
      | Except.error er => Except.error er
      | Except.ok pa =>
        let r := resolveTypes prim complex e.types
        let item₁ := { st.item with
          required_basic_types :=
            r.2.1.foldl setInsert st.item.required_basic_types,
          required_complex_types :=
            r.2.2.1.foldl setInsert st.item.required_complex_types }
        let deps₁ := r.2.2.2.foldl setInsert st.deps
        match resolveAttrType e r.1 with
        | Except.error er => Except.error er
        | Except.ok ty =>
          let props : Props :=
            { name := attr, min := e.min, max := e.max, type := ty,
              childAddr := none }
          let isComposite :=
            ty = AttrType.one (some ("Element")) ∨
            ty = AttrType.one (some ("BackboneElement"))
          if isComposite then
            match attr.data with
            | [] => Except.error Err.indexError
            | _ :: _ =>
              let a := st.heap.length
              let marker := match ty with
                | AttrType.one (some m) => m
                | _ => ""
              let ic : IC :=
                { name := capFirst attr, superclass := marker, attrsAddr := a }
              let props' := { props with
                type := AttrType.one (some (capFirst attr)),
                childAddr := some a }
              let heap₁ := st.heap ++ [[]]
              let heap₂ := heap₁.set pa (insertOD (heapGet heap₁ pa) attr props')
              Except.ok { st with
                item := item₁, heap := heap₂,
                ics := insertOD st.ics attr ic, deps := deps₁ }
          else
            let heap₂ :=
              st.heap.set pa (insertOD (heapGet st.heap pa) attr props)
            Except.ok { st with item := item₁, heap := heap₂, deps := deps₁ }

/-- `item_from_structure_definition(name, structure_definitions)`: look the
definition up and fold the element loop over an initial state whose root
item has superclass `FHIRBase` and an empty attribute mapping at heap
address `0`. -/
def item_from_structure_definition (prim complex : List String)
    (name : String) (sds : List (String × SD)) : Except Err CState :=
  match lookupOD sds name with
  | none => Except.error (Err.lookupError name)
  | some sd =>
    let st₀ : CState :=
      { item := { url := sd.url, name := name, superclass := "FHIRBase",
                  attrsAddr := 0, required_basic_types := [],
                  required_complex_types := [] },
        heap := [[]], ics := [], deps := [] }
    sd.elements.foldlM (processElement prim complex name sd) st₀

-- ## write_items: the dependency-closure driver

/-- The three sentinel base types the closure driver never compiles. -/
def sentinelNames : List String := ["FHIRBase", "Element", "Extension"]

/-- The emission record: one `(name, dependencies)` entry per definition
handed to the template collaborator, in processing order. -/
abbrev Log := List (String × List String)

/-- Outcome of the `for name in items` loop: success with the updated
shared `processed` list and emission log, failure carrying the emissions
made before the exception, or fuel exhaustion of the embedding. -/
inductive LoopSt where
  | ok (log : Log) (processed : List String)
  | fail (log : Log) (e : Err)
  | fuelOut
deriving DecidableEq, Repr

/-- Shape of a recursive `write_items` call as seen by the loop body. -/
abbrev Descend := List String → List String → Log → Option (Log × Except Err (List String))

/-- The `for name in items` loop of `write_items`, parameterized by the
recursive call `descend`.  Sentinels are skipped; each other name is
compiled (a pure function of `sds`) and emitted; its dependencies not yet
in the shared `processed` list are appended to it and recursed on before
the loop continues.  The returned `processed` is the shared list's final
state; the recursive call's own sorted return value is discarded, exactly
as in the source. -/
def wiLoopG (prim complex : List String) (sds : List (String × SD))
    (descend : Descend) :
    List String → List String → Log → LoopSt
  | [], p, log => LoopSt.ok log p
  | name :: rest, p, log =>
    if name ∈ sentinelNames then wiLoopG prim complex sds descend rest p log
    else
      match item_from_structure_definition prim complex name sds with
      | Except.error e => LoopSt.fail log e
      | Except.ok r =>
        let log₁ := log ++ [(name, r.deps)]
        let unproc := r.deps.filter (fun d => !(p.contains d))
        let p₁ := p ++ unproc
        match descend unproc p₁ log₁ with
        | none => LoopSt.fuelOut
        | some (log₂, Except.error e) => LoopSt.fail log₂ e
        | some (log₂, Except.ok p₂) => wiLoopG prim complex sds descend rest p₂ log₂

/-- One `write_items` activation with a fuel bound on recursion depth:
reject an empty-string item, then run the loop, descending with one unit
of fuel less.  `none` means the fuel bound was reached (the adequacy
theorem shows `writeFuelBound` units always suffice). -/
def wiStep (prim complex : List String) (sds : List (String × SD)) :
    Nat → List String → List String → Log → Option (Log × Except Err (List String))
  | 0, _, _, _ => none
  | Nat.succ fuel, items, p, log =>
    if ("") ∈ items then some (log, Except.error Err.validationError)
    else
      match wiLoopG prim complex sds
          (fun a b c => wiStep prim complex sds fuel a b c) items p log with
      | LoopSt.ok log₁ p₁ => some (log₁, Except.ok p₁)
      | LoopSt.fail log₁ e => some (log₁, Except.error e)
      | LoopSt.fuelOut => none

/-- The top-level `write_items(structure_definitions, items)` call:
`processed` starts empty and the returned value is the shared list plus
the root items, sorted ascending. -/
def write_items (prim complex : List String) (sds : List (String × SD))
    (fuel : Nat) (items : List String) :
    Option (Log × Except Err (List String)) :=
  match wiStep prim complex sds fuel items [] [] with
  | some (log, Except.ok p) => some (log, Except.ok (pySort (p ++ items)))
  | r => r

/-- Every dependency name any successful compilation can ever produce:
the union of the dependency sets of all definitions in the catalog.  The
closure driver only ever appends elements of this list to `processed`. -/
def depCatalog (prim complex : List String) (sds : List (String × SD)) :
    List String :=
  sds.foldr
    (fun entry acc =>
      (match item_from_structure_definition prim complex entry.fst sds with
       | Except.ok r => r.deps
       | Except.error _ => []) ++ acc)
    []

/-- A recursion-depth bound sufficient for every `write_items` run over a
given catalog: the shared `processed` list grows strictly along any chain
of nested recursive calls, and only by names from `depCatalog`. -/
def writeFuelBound (prim complex : List String) (sds : List (String × SD)) :
    Nat :=
  (depCatalog prim complex sds).length + 2

-- ## Concrete inputs used by witnesses and counterexamples

/-- A root element record (path with a single segment, some docstring). -/
def mkRootEl (nm : String) : ElementDef :=
  { path := some nm, definition := some ("doc") }

/-- Catalog where `A`'s superclass is `B` and `B`'s superclass is the
`object` sentinel, so `A` depends on `B` and `B` depends on nothing. -/
def sdA : SD := { base := some ("B"), elements := [mkRootEl ("A")] }

def sdB : SD := { base := some ("object"), elements := [mkRootEl ("B")] }

def sdsAB : List (String × SD) := [(("A"), sdA), (("B"), sdB)]

/-- A true dependency cycle: `A`'s superclass is `B`, `B`'s is `A`. -/
def cycA : SD := { base := some ("B"), elements := [mkRootEl ("A")] }

def cycB : SD := { base := some ("A"), elements := [mkRootEl ("B")] }

def cycSds : List (String × SD) := [(("A"), cycA), (("B"), cycB)]

/-- The spec's worked example: root with base `DomainResource`, a `name`
attribute of type `HumanName` (0..*), an `active` of type `boolean`
(0..1). -/
def patRoot : ElementDef := { path := some ("Pat"), definition := some ("doc") }

def patName : ElementDef :=
  { path := some ("Pat.name"), min := some ("0"), max := some ("*"),
    types := [{ code := some ("HumanName"), profile := none }] }

def patActive : ElementDef :=
  { path := some ("Pat.active"), min := some ("0"), max := some ("1"),
    types := [{ code := some ("boolean"), profile := none }] }

def patSD : SD :=
  { url := some ("u"), base := some ("DomainResource"),
    elements := [patRoot, patName, patActive] }

def patSds : List (String × SD) := [(("Pat"), patSD)]

def patPrim : List String := [("boolean"), ("string")]

def patComplex : List String := [("HumanName")]

/-- An inline-composite element (`contact` of type `BackboneElement`). -/
def xContact : ElementDef :=
  { path := some ("X.contact"), min := some ("0"), max := some ("*"),
    types := [{ code := some ("BackboneElement"), profile := none }] }

/-- The initial compilation state for a definition named `X`. -/
def st0X : CState :=
  { item := { url := none, name := "X", superclass := "FHIRBase",
              attrsAddr := 0, required_basic_types := [],
              required_complex_types := [] },
    heap := [[]], ics := [], deps := [] }

/-- Elements whose final path segments are the reserved word `for` and the
marker-in-the-middle segment `a[x]b`. -/
def elFor : ElementDef :=
  { path := some ("X.for"),
    types := [{ code := some ("boolean"), profile := none }] }

def elMid : ElementDef :=
  { path := some ("X.a[x]b"),
    types := [{ code := some ("boolean"), profile := none }] }

def reservedSD : SD :=
  { base := some ("object"), elements := [mkRootEl ("X"), elFor, elMid] }

def reservedSds : List (String × SD) := [(("X"), reservedSD)]

/-- Python's reserved identifiers (the keyword list of the target
language; `False`/`None`/`True` are keyword constants). -/
def pythonKeywords : List String :=
  [("False"), ("None"), ("True"), ("and"), ("as"), ("assert"), ("async"),
   ("await"), ("break"), ("class"), ("continue"), ("def"), ("del"),
   ("elif"), ("else"), ("except"), ("finally"), ("for"), ("from"),
   ("global"), ("if"), ("import"), ("in"), ("is"), ("lambda"),
   ("nonlocal"), ("not"), ("or"), ("pass"), ("raise"), ("return"),
   ("try"), ("while"), ("with"), ("yield")]

/-- Dialect A root carrying the bare base name `FHIRBase` (the sentinel),
and the Dialect B equivalent, a URL whose final segment is `FHIRBase`. -/
def dialectA : SD := { base := some ("FHIRBase"), elements := [mkRootEl ("X")] }

def dialectB : SD :=
  { baseDefinition := some ("http://h/FHIRBase"), elements := [mkRootEl ("X")] }

/-- A definition providing neither `base` nor `baseDefinition`. -/
def noBaseSD : SD := { elements := [mkRootEl ("N")] }

def noBaseSds : List (String × SD) := [(("N"), noBaseSD)]

/-- Type references exercising the `Reference` rewrite: one without a
profile, one with, one unrelated. -/
def refTrs : List TypeRef :=
  [{ code := some ("Reference"), profile := none },
   { code := some ("Reference"), profile := some ("http://h/Patient") },
   { code := some ("boolean"), profile := none }]

/-- The compiled state of the spec's worked example (extracted from the
compilation result; the fallback branch is never taken). -/
def patRes : CState :=
  match item_from_structure_definition patPrim patComplex ("Pat") patSds with
  | Except.ok s => s
  | Except.error _ => st0X

/-- The state after processing the inline-composite element `xContact`
from the fresh state `st0X`. -/
def stContactRes : CState :=
  match processElement [("string")] [] ("X")
      { base := some ("DomainResource"), elements := [] } st0X xContact with
  | Except.ok s => s
  | Except.error _ => st0X

/-- The state after processing the reserved-word element `elFor` from the
fresh state `st0X`. -/
def stForRes : CState :=
  match processElement [("boolean")] [] ("X") reservedSD st0X elFor with
  | Except.ok s => s
  | Except.error _ => st0X

/-- The superclass value chosen by the two-dialect ladder before the
`FHIRBase` check and the final slash split: the DSTU2 `base` value when
non-empty, else the STU3 `baseDefinition` value, else `FHIRBase`. -/
def dialectSuper (sd : SD) : String :=
  if sd.base.getD ("") = "" then sd.baseDefinition.getD ("FHIRBase")
  else sd.base.getD ("")

-- ## Invariant predicates for the closure driver

/-- Relation between the shared state before and after one (possibly
recursive) closure step: the `processed` list only grows, it grows only by
names from the dependency catalog `K`, and the emission log grows by
entries for non-sentinel names whose dependency sets end up inside the
final `processed` list. -/
def StepInv (K : List String) (p p' : List String) (log log' : Log) : Prop :=
  (∀ x ∈ p, x ∈ p') ∧ (∀ x ∈ p', x ∈ p ∨ x ∈ K) ∧
  ∃ ext, log' = log ++ ext ∧
    ∀ ne ∈ ext, ¬ ne.fst ∈ sentinelNames ∧ ∀ d ∈ ne.snd, d ∈ p'

/-- A recursive call respecting `StepInv` on every successful return. -/
def DescendInv (K : List String) (descend : Descend) : Prop :=
  ∀ items p log log' p',
    descend items p log = some (log', Except.ok p') → StepInv K p p' log log'

-- ## Theorems
-- ### Order and sorting infrastructure

theorem strLeAux_total : ∀ a b : List Char, strLeAux a b = true ∨ strLeAux b a = true := by
  intro a
  induction a with
  | nil => intro b; left; rfl
  | cons x xs ih =>
    intro b
    cases b with
    | nil => right; rfl
    | cons y ys =>
      by_cases h1 : x.val.toNat < y.val.toNat
      · left; simp [strLeAux, h1]
      · by_cases h2 : y.val.toNat < x.val.toNat
        · right; simp [strLeAux, h2]
        · rcases ih ys with h | h
          · left; simp [strLeAux, h1, h2, h]
          · right
            have h1' : ¬ y.val.toNat < x.val.toNat := h2
            have h2' : ¬ x.val.toNat < y.val.toNat := h1
            simp [strLeAux, h1', h2', h]

theorem strLeAux_trans : ∀ a b c : List Char,
    strLeAux a b = true → strLeAux b c = true → strLeAux a c = true := by
  intro a
  induction a with
  | nil => intro b c _ _; rfl
  | cons x xs ih =>
    intro b c hab hbc
    cases b with
    | nil => simp [strLeAux] at hab
    | cons y ys =>
      cases c with
      | nil => simp [strLeAux] at hbc
      | cons z zs =>
        by_cases h1 : x.val.toNat < y.val.toNat
        · by_cases h2 : y.val.toNat < z.val.toNat
          · have hxz : x.val.toNat < z.val.toNat := Nat.lt_trans h1 h2
            simp [strLeAux, hxz]
          · by_cases h3 : z.val.toNat < y.val.toNat
            · simp [strLeAux, h2, h3] at hbc
            · have hyz : y.val.toNat = z.val.toNat :=
                Nat.le_antisymm (Nat.not_lt.mp h3) (Nat.not_lt.mp h2)
              have hxz : x.val.toNat < z.val.toNat := hyz ▸ h1
              simp [strLeAux, hxz]
        · by_cases h4 : y.val.toNat < x.val.toNat
          · simp [strLeAux, h1, h4] at hab
          · have hxy : x.val.toNat = y.val.toNat :=
              Nat.le_antisymm (Nat.not_lt.mp h4) (Nat.not_lt.mp h1)
            simp only [strLeAux, if_neg h1, if_neg h4] at hab
            by_cases h2 : y.val.toNat < z.val.toNat
            · have hxz : x.val.toNat < z.val.toNat := hxy ▸ h2
              simp [strLeAux, hxz]
            · by_cases h3 : z.val.toNat < y.val.toNat
              · simp [strLeAux, h2, h3] at hbc
              · have hyz : y.val.toNat = z.val.toNat :=
                  Nat.le_antisymm (Nat.not_lt.mp h3) (Nat.not_lt.mp h2)
                simp only [strLeAux, if_neg h2, if_neg h3] at hbc
                have hxz1 : ¬ x.val.toNat < z.val.toNat := by omega
                have hxz2 : ¬ z.val.toNat < x.val.toNat := by omega
                simp [strLeAux, hxz1, hxz2, ih ys zs hab hbc]

theorem strLe_total (a b : String) : strLe a b = true ∨ strLe b a = true :=
  strLeAux_total a.data b.data

theorem strLe_trans {a b c : String} (hab : strLe a b = true)
    (hbc : strLe b c = true) : strLe a c = true :=
  strLeAux_trans a.data b.data c.data hab hbc

theorem mem_pyInsert (a x : String) : ∀ l : List String,
    a ∈ pyInsert x l ↔ a = x ∨ a ∈ l := by
  intro l
  induction l with
  | nil => simp [pyInsert]
  | cons y ys ih =>
    by_cases h : strLe x y = true
    · simp [pyInsert, h]
    · simp [pyInsert, h, ih]
      tauto

theorem mem_pySort (a : String) : ∀ l : List String, a ∈ pySort l ↔ a ∈ l := by
  intro l
  induction l with
  | nil => simp [pySort]
  | cons x xs ih =>
    simp [pySort, mem_pyInsert, ih]

theorem sorted_pyInsert (x : String) : ∀ l : List String,
    List.Sorted (fun a b => strLe a b = true) l →
    List.Sorted (fun a b => strLe a b = true) (pyInsert x l) := by
  intro l
  induction l with
  | nil => intro _; simp [pyInsert]
  | cons y ys ih =>
    intro hl
    rw [List.sorted_cons] at hl
    obtain ⟨hy, hys⟩ := hl
    by_cases h : strLe x y = true
    · have : pyInsert x (y :: ys) = x :: y :: ys := by simp [pyInsert, h]
      rw [this, List.sorted_cons]
      refine ⟨?_, ?_⟩
      · intro b hb
        rcases List.mem_cons.mp hb with hb | hb
        · exact hb ▸ h
        · exact strLe_trans h (hy b hb)
      · rw [List.sorted_cons]; exact ⟨hy, hys⟩
    · have : pyInsert x (y :: ys) = y :: pyInsert x ys := by simp [pyInsert, h]
      rw [this, List.sorted_cons]
      refine ⟨?_, ih hys⟩
      intro b hb
      rcases (mem_pyInsert b x ys).mp hb with hb | hb
      · rw [hb]
        rcases strLe_total x y with hxy | hyx
        · exact absurd hxy h
        · exact hyx
      · exact hy b hb

theorem sorted_pySort : ∀ l : List String,
    List.Sorted (fun a b => strLe a b = true) (pySort l) := by
  intro l
  induction l with
  | nil => simp [pySort]
  | cons x xs ih => exact sorted_pyInsert x (pySort xs) ih

-- ### Dictionary and heap lemmas

theorem find?_map_insert {α : Type} (k : String) (v : α) :
    ∀ m : List (String × α), m.any (fun e => e.fst == k) = true →
      (m.map (fun e => if e.fst == k then (k, v) else e)).find?
        (fun e => e.fst == k) = some (k, v) := by
  intro m
  induction m with
  | nil => intro h; simp at h
  | cons e rest ih =>
    intro h
    by_cases he : e.fst = k
    · simp [List.map_cons, he, List.find?_cons_of_pos]
    · have he' : (e.fst == k) = false := by simp [he]
      simp only [List.any_cons, he', Bool.false_or] at h
      simp only [List.map_cons, he', if_false]
      rw [List.find?_cons_of_neg _ (by simp [he]), ih h]

theorem lookupOD_insertOD_self {α : Type} (k : String) (v : α) :
    ∀ m : List (String × α), lookupOD (insertOD m k v) k = some v := by
  intro m
  by_cases h : m.any (fun e => e.fst == k) = true
  · simp only [insertOD, if_pos h, lookupOD, find?_map_insert k v m h, Option.map_some']
  · have hf : m.find? (fun e => e.fst == k) = none := by
      rw [List.find?_eq_none]
      intro x hx
      intro hpx
      exact h (List.any_eq_true.mpr ⟨x, hx, hpx⟩)
    simp only [insertOD, if_neg h, lookupOD]
    rw [List.find?_append, hf]
    simp [List.find?_cons_of_pos]

theorem getD_set_self {α : Type} (d x : α) :
    ∀ (l : List α) (i : Nat), i < l.length → (l.set i x).getD i d = x := by
  intro l
  induction l with
  | nil => intro i h; simp at h
  | cons a t ih =>
    intro i h
    cases i with
    | zero => rfl
    | succ j =>
      have hj : j < t.length := by simpa using h
      simpa [List.getD] using ih j hj

theorem getD_append_left {α : Type} (d : α) :
    ∀ (l₁ l₂ : List α) (i : Nat), i < l₁.length →
      (l₁ ++ l₂).getD i d = l₁.getD i d := by
  intro l₁
  induction l₁ with
  | nil => intro l₂ i h; simp at h
  | cons a t ih =>
    intro l₂ i h
    cases i with
    | zero => rfl
    | succ j =>
      have hj : j < t.length := by simpa using h
      simpa [List.getD] using ih l₂ j hj

theorem getD_append_len {α : Type} (d x : α) :
    ∀ l : List α, (l ++ [x]).getD l.length d = x := by
  intro l
  induction l with
  | nil => rfl
  | cons a t ih => simp only [List.cons_append, List.length_cons]; exact ih

theorem getD_set_ne {α : Type} (d x : α) :
    ∀ (l : List α) (i j : Nat), i ≠ j → (l.set i x).getD j d = l.getD j d := by
  intro l
  induction l with
  | nil => intro i j _; simp
  | cons a t ih =>
    intro i j hij
    cases i with
    | zero =>
      cases j with
      | zero => exact absurd rfl hij
      | succ m => rfl
    | succ n =>
      cases j with
      | zero => rfl
      | succ m =>
        have : n ≠ m := fun h => hij (by rw [h])
        simpa [List.getD] using ih n m this

-- ### The dependency catalog bounds every discovered dependency

theorem deps_subset_foldr (prim complex : List String)
    (sds : List (String × SD)) (name : String) (r : CState)
    (hc : item_from_structure_definition prim complex name sds = Except.ok r) :
    ∀ part : List (String × SD), (∃ e ∈ part, e.fst = name) →
      ∀ d ∈ r.deps,
        d ∈ part.foldr
          (fun entry acc =>
            (match item_from_structure_definition prim complex entry.fst sds with
             | Except.ok r' => r'.deps
             | Except.error _ => []) ++ acc)
          [] := by
  intro part
  induction part with
  | nil => rintro ⟨e, he, _⟩ d _; simp at he
  | cons hd tl ih =>
    rintro ⟨e, he, hefst⟩ d hd'
    rcases List.mem_cons.mp he with rfl | he'
    · simp only [List.foldr_cons, List.mem_append]
      left
      rw [hefst, hc]
      exact hd'
    · simp only [List.foldr_cons, List.mem_append]
      right
      exact ih ⟨e, he', hefst⟩ d hd'

theorem lookupOD_mem {α : Type} (m : List (String × α)) (k : String) (v : α)
    (h : lookupOD m k = some v) : ∃ e ∈ m, e.fst = k := by
  unfold lookupOD at h
  cases hf : m.find? (fun e => e.fst == k) with
  | none => rw [hf] at h; simp at h
  | some e =>
    have hm := List.mem_of_find?_eq_some hf
    have hp := List.find?_some hf
    exact ⟨e, hm, by simpa using hp⟩

theorem deps_subset_depCatalog (prim complex : List String)
    (sds : List (String × SD)) (name : String) (r : CState)
    (hc : item_from_structure_definition prim complex name sds = Except.ok r) :
    ∀ d ∈ r.deps, d ∈ depCatalog prim complex sds := by
  have hl : ∃ e ∈ sds, e.fst = name := by
    unfold item_from_structure_definition at hc
    cases hk : lookupOD sds name with
    | none => rw [hk] at hc; simp at hc
    | some sd => exact lookupOD_mem sds name sd hk
  exact deps_subset_foldr prim complex sds name r hc sds hl

-- ### Filter length lemmas for the recursion-depth bound

theorem length_filter_le_mono {p q : String → Bool}
    (h : ∀ x, q x = true → p x = true) :
    ∀ K : List String, (K.filter q).length ≤ (K.filter p).length := by
  intro K
  induction K with
  | nil => simp
  | cons a l ih =>
    by_cases hq : q a = true
    · have hp := h a hq
      simp only [List.filter_cons, hq, hp, if_true, List.length_cons]
      omega
    · by_cases hp : p a = true
      · simp only [List.filter_cons, hq, hp, if_false, if_true, List.length_cons,
          Bool.false_eq_true]
        omega
      · simp only [List.filter_cons, hq, hp, Bool.false_eq_true, if_false]
        exact ih

theorem length_filter_lt_strict {p q : String → Bool}
    (h : ∀ x, q x = true → p x = true) :
    ∀ (K : List String) (u : String), u ∈ K → p u = true → q u = false →
      (K.filter q).length < (K.filter p).length := by
  intro K
  induction K with
  | nil => intro u hu; simp at hu
  | cons a l ih =>
    intro u hu hpu hqu
    rcases List.mem_cons.mp hu with rfl | hu'
    · simp only [List.filter_cons, hqu, hpu, Bool.false_eq_true, if_false, if_true,
        List.length_cons]
      have := length_filter_le_mono h l
      omega
    · by_cases hqa : q a = true
      · have hpa := h a hqa
        simp only [List.filter_cons, hqa, hpa, if_true, List.length_cons]
        have := ih u hu' hpu hqu
        omega
      · by_cases hpa : p a = true
        · simp only [List.filter_cons, hqa, hpa, Bool.false_eq_true, if_false, if_true,
            List.length_cons]
          have := ih u hu' hpu hqu
          omega
        · simp only [List.filter_cons, hqa, hpa, Bool.false_eq_true, if_false]
          exact ih u hu' hpu hqu

-- ### Step invariants of the closure driver

theorem StepInv_refl (K p : List String) (log : Log) : StepInv K p p log log :=
  ⟨fun _ hx => hx, fun x hx => Or.inl hx, [], by simp, by simp⟩

theorem StepInv_trans (K : List String) {p p₁ p₂ : List String}
    {log log₁ log₂ : Log} (h1 : StepInv K p p₁ log log₁)
    (h2 : StepInv K p₁ p₂ log₁ log₂) : StepInv K p p₂ log log₂ := by
  obtain ⟨m1, r1, ext1, he1, hp1⟩ := h1
  obtain ⟨m2, r2, ext2, he2, hp2⟩ := h2
  refine ⟨fun x hx => m2 x (m1 x hx), ?_, ext1 ++ ext2, ?_, ?_⟩
  · intro x hx
    rcases r2 x hx with h | h
    · exact r1 x h
    · exact Or.inr h
  · rw [he2, he1, List.append_assoc]
  · intro ne hne
    rcases List.mem_append.mp hne with h | h
    · obtain ⟨hsent, hdep⟩ := hp1 ne h
      exact ⟨hsent, fun d hd' => m2 d (hdep d hd')⟩
    · exact hp2 ne h

theorem wiLoopG_inv (prim complex : List String) (sds : List (String × SD))
    (descend : Descend)
    (hd : DescendInv (depCatalog prim complex sds) descend) :
    ∀ (items p log : _) log' p',
      wiLoopG prim complex sds descend items p log = LoopSt.ok log' p' →
      StepInv (depCatalog prim complex sds) p p' log log' := by
  intro items
  induction items with
  | nil =>
    intro p log log' p' h
    simp only [wiLoopG] at h
    cases h
    exact StepInv_refl _ _ _
  | cons name rest ih =>
    intro p log log' p' h
    simp only [wiLoopG] at h
    by_cases hs : name ∈ sentinelNames
    · rw [if_pos hs] at h
      exact ih p log log' p' h
    · rw [if_neg hs] at h
      split at h
      · simp at h
      · next r hc =>
        split at h
        · simp at h
        · simp at h
        · next log₂ p₂ hdres =>
          have s2 := hd _ _ _ _ _ hdres
          have s3 := ih p₂ log₂ log' p' h
          have hdepsK : ∀ d ∈ r.deps, d ∈ depCatalog prim complex sds :=
            deps_subset_depCatalog prim complex sds name r hc
          have s1 : StepInv (depCatalog prim complex sds) p
              (p ++ r.deps.filter (fun d => !(p.contains d)))
              log (log ++ [(name, r.deps)]) := by
            refine ⟨fun x hx => List.mem_append.mpr (Or.inl hx), ?_, [(name, r.deps)], rfl, ?_⟩
            · intro x hx
              rcases List.mem_append.mp hx with h' | h'
              · exact Or.inl h'
              · exact Or.inr (hdepsK x (List.mem_of_mem_filter h'))
            · intro ne hne
              have hne' : ne = (name, r.deps) := by simpa using hne
              subst hne'
              refine ⟨hs, ?_⟩
              intro d hd'
              by_cases hdp : d ∈ p
              · exact List.mem_append.mpr (Or.inl hdp)
              · refine List.mem_append.mpr (Or.inr ?_)
                refine List.mem_filter.mpr ⟨hd', ?_⟩
                simp only [Bool.not_eq_true']
                rw [← Bool.not_eq_true]
                intro hcont
                exact hdp (List.elem_iff.mp hcont)
          exact StepInv_trans _ s1 (StepInv_trans _ s2 s3)

theorem wiStep_inv (prim complex : List String) (sds : List (String × SD)) :
    ∀ fuel : Nat,
      DescendInv (depCatalog prim complex sds)
        (fun a b c => wiStep prim complex sds fuel a b c) := by
  intro fuel
  induction fuel with
  | zero =>
    intro items p log log' p' h
    simp [wiStep] at h
  | succ f ih =>
    intro items p log log' p' h
    simp only [wiStep] at h
    by_cases he : ("") ∈ items
    · rw [if_pos he] at h
      simp at h
    · rw [if_neg he] at h
      cases hl : wiLoopG prim complex sds
          (fun a b c => wiStep prim complex sds f a b c) items p log with
      | ok log₁ p₁ =>
        rw [hl] at h
        simp only [Option.some.injEq, Prod.mk.injEq] at h
        obtain ⟨h1, h2⟩ := h
        cases h2
        cases h1
        exact wiLoopG_inv prim complex sds _ ih items p log log' p' hl
      | fail log₁ e => rw [hl] at h; simp at h
      | fuelOut => rw [hl] at h; simp at h

-- ### Fuel adequacy: the recursion depth of write_items is bounded

theorem wiStep_nil (prim complex : List String) (sds : List (String × SD))
    (f : Nat) (p : List String) (log : Log) :
    wiStep prim complex sds (f + 1) [] p log = some (log, Except.ok p) := rfl

theorem notContains_iff (l : List String) (x : String) :
    (!(l.contains x)) = true ↔ ¬ x ∈ l := by
  rw [Bool.not_eq_true']
  constructor
  · intro h hm
    have h2 : l.contains x = true := List.elem_iff.mpr hm
    rw [h2] at h
    simp at h
  · intro hm
    cases hc : l.contains x with
    | false => rfl
    | true => exact absurd (List.elem_iff.mp hc) hm

theorem wiStep_adequate (prim complex : List String) (sds : List (String × SD)) :
    ∀ (fuel : Nat) (p items : List String) (log : Log),
      ((depCatalog prim complex sds).filter
        (fun d => !(p.contains d))).length + 2 ≤ fuel →
      wiStep prim complex sds fuel items p log ≠ none := by
  intro fuel
  induction fuel with
  | zero => intro p items log hb; omega
  | succ f ih =>
    intro p items log hb
    have loop : ∀ (its p' : List String) (lg : Log),
        ((depCatalog prim complex sds).filter
          (fun d => !(p'.contains d))).length + 2 ≤ f + 1 →
        wiLoopG prim complex sds
          (fun a b c => wiStep prim complex sds f a b c) its p' lg ≠
          LoopSt.fuelOut := by
      intro its
      induction its with
      | nil => intro p' lg _ h; simp [wiLoopG] at h
      | cons name rest ih2 =>
        intro p' lg hb' hfo
        simp only [wiLoopG] at hfo
        by_cases hs : name ∈ sentinelNames
        · rw [if_pos hs] at hfo
          exact ih2 p' lg hb' hfo
        · rw [if_neg hs] at hfo
          split at hfo
          · simp at hfo
          · next r hc =>
            split at hfo
            · next hdres =>
              by_cases hu : r.deps.filter (fun d => !(p'.contains d)) = []
              · rw [hu, List.append_nil] at hdres
                have hf1 : 1 ≤ f := by omega
                cases f with
                | zero => omega
                | succ f' =>
                  rw [wiStep_nil] at hdres
                  simp at hdres
              · obtain ⟨u, hu'⟩ := List.exists_mem_of_ne_nil _ hu
                obtain ⟨huD, huP⟩ := List.mem_filter.mp hu'
                have huK : u ∈ depCatalog prim complex sds :=
                  deps_subset_depCatalog prim complex sds name r hc u huD
                have himp : ∀ x,
                    (!((p' ++ r.deps.filter (fun d => !(p'.contains d))).contains x)) = true →
                    (!(p'.contains x)) = true := by
                  intro x hx
                  rw [notContains_iff] at hx ⊢
                  intro hm
                  exact hx (List.mem_append.mpr (Or.inl hm))
                have hqu : (!((p' ++ r.deps.filter (fun d => !(p'.contains d))).contains u)) = false := by
                  have : u ∈ p' ++ r.deps.filter (fun d => !(p'.contains d)) :=
                    List.mem_append.mpr (Or.inr hu')
                  have hc2 : (p' ++ r.deps.filter (fun d => !(p'.contains d))).contains u = true :=
                    List.elem_iff.mpr this
                  rw [hc2]
                  rfl
                have hlt := length_filter_lt_strict himp
                  (depCatalog prim complex sds) u huK huP hqu
                have hb2 : ((depCatalog prim complex sds).filter
                    (fun d => !((p' ++ r.deps.filter (fun d => !(p'.contains d))).contains d))).length + 2 ≤ f := by
                  omega
                exact ih (p' ++ r.deps.filter (fun d => !(p'.contains d))) _ _ hb2 hdres
            · simp at hfo
            · next log₂ p₂ hdres =>
              have s2 := wiStep_inv prim complex sds f _ _ _ _ _ hdres
              obtain ⟨mono, _, _⟩ := s2
              have himp2 : ∀ x, (!(p₂.contains x)) = true → (!(p'.contains x)) = true := by
                intro x hx
                rw [notContains_iff] at hx ⊢
                intro hm
                exact hx (mono x (List.mem_append.mpr (Or.inl hm)))
              have hle := length_filter_le_mono himp2 (depCatalog prim complex sds)
              exact ih2 p₂ log₂ (by omega) hfo
    intro hn
    simp only [wiStep] at hn
    by_cases he : ("") ∈ items
    · rw [if_pos he] at hn
      simp at hn
    · rw [if_neg he] at hn
      split at hn
      · simp at hn
      · simp at hn
      · next hfo => exact loop items p log hb hfo

-- ### Elimination helper for a successful write_items run

theorem write_items_ok_elim (prim complex : List String)
    (sds : List (String × SD)) (fuel : Nat) (items : List String)
    (log : Log) (res : List String)
    (h : write_items prim complex sds fuel items = some (log, Except.ok res)) :
    ∃ p, wiStep prim complex sds fuel items [] [] = some (log, Except.ok p) ∧
      res = pySort (p ++ items) := by
  unfold write_items at h
  cases hw : wiStep prim complex sds fuel items [] [] with
  | none => rw [hw] at h; simp at h
  | some pr =>
    rw [hw] at h
    obtain ⟨lg, wres⟩ := pr
    cases wres with
    | error e => simp at h
    | ok p =>
      simp only [Option.some.injEq, Prod.mk.injEq, Except.ok.injEq] at h
      obtain ⟨h1, h2⟩ := h
      subst h1
      exact ⟨p, rfl, h2.symm⟩

/-- Claim C1 counterexample: with roots `["A", "B"]` where `A` depends on
`B`, the returned processed sequence is `["A", "B", "B"]`, which contains
a duplicate, and the emission log shows `B` compiled twice — the loop does
not skip a work-list name that is already processed. -/
theorem write_items_duplicates_cex :
    write_items [] [] sdsAB 5 [("A"), ("B")] =
      some ([(("A"), [("B")]), (("B"), []), (("B"), [])],
        Except.ok [("A"), ("B"), ("B")]) ∧
    ¬ (([("A"), ("B"), ("B")] : List String).Nodup) ∧
    (([(("A"), [("B")]), (("B"), []), (("B"), [])] : Log).count (("B"), []) = 2) := by
  refine ⟨rfl, by decide, by decide⟩

/-- Claim C1 (amended): whenever the closure computation `write_items`
returns a processed sequence, that sequence is sorted in ascending
lexicographic order; it may however contain duplicates, because the work
loop compiles every non-sentinel work-list name unconditionally (already
processed names are recompiled, not skipped), and a root that is also
discovered as a dependency appears twice in the returned list. -/
theorem write_items_result_sorted (prim complex : List String)
    (sds : List (String × SD)) (fuel : Nat) (items : List String)
    (log : Log) (res : List String)
    (h : write_items prim complex sds fuel items = some (log, Except.ok res)) :
    List.Sorted (fun a b => strLe a b = true) res := by
  obtain ⟨p, _, h2⟩ := write_items_ok_elim prim complex sds fuel items log res h
  rw [h2]
  exact sorted_pySort _

/-- Witness for `write_items_result_sorted` at the duplicate-producing
input. -/
theorem write_items_result_sorted_witness :
    write_items [] [] sdsAB 5 [("A"), ("B")] =
      some ([(("A"), [("B")]), (("B"), []), (("B"), [])],
        Except.ok [("A"), ("B"), ("B")]) ∧
    List.Sorted (fun a b => strLe a b = true) [("A"), ("B"), ("B")] :=
  ⟨by rfl, write_items_result_sorted [] [] sdsAB 5 [("A"), ("B")] _ _ (by rfl)⟩

/-- Claim C2 counterexample: on the true dependency cycle `A ↔ B` the
closure computation terminates and returns a value — and the value is
already reached at recursion depth 5, unchanged at depth 50 — because each
discovered dependency is appended to `processed` *before* the recursive
call, so the mutual reference is followed only until it meets a processed
name. -/
theorem write_items_cycle_cex :
    write_items [] [] cycSds 5 [("A")] =
      some ([(("A"), [("B")]), (("B"), [("A")]), (("A"), [("B")])],
        Except.ok [("A"), ("A"), ("B")]) ∧
    write_items [] [] cycSds 50 [("A")] =
      some ([(("A"), [("B")]), (("B"), [("A")]), (("A"), [("B")])],
        Except.ok [("A"), ("A"), ("B")]) :=
  ⟨rfl, rfl⟩

/-- Claim C2 (amended): the closure computation terminates for *every*
input over the finite type catalog, including true dependency cycles: a
recursion depth of `writeFuelBound` (the size of the dependency catalog
plus two) always suffices, because dependencies are marked processed
before the recursive call, so each nested call strictly grows the
processed list. -/
theorem write_items_always_terminates (prim complex : List String)
    (sds : List (String × SD)) (items : List String) (fuel : Nat)
    (hf : writeFuelBound prim complex sds ≤ fuel) :
    write_items prim complex sds fuel items ≠ none := by
  intro hn
  have hfilter : (depCatalog prim complex sds).filter
      (fun d => !(([] : List String).contains d)) = depCatalog prim complex sds := by
    apply List.filter_eq_self.mpr
    intro a _
    rfl
  have hbound : ((depCatalog prim complex sds).filter
      (fun d => !(([] : List String).contains d))).length + 2 ≤ fuel := by
    rw [hfilter]
    unfold writeFuelBound at hf
    omega
  have hs := wiStep_adequate prim complex sds fuel [] items [] hbound
  unfold write_items at hn
  cases hw : wiStep prim complex sds fuel items [] [] with
  | none => exact hs hw
  | some pr =>
    rw [hw] at hn
    obtain ⟨lg, wres⟩ := pr
    cases wres with
    | ok p => simp at hn
    | error e => simp at hn

/-- Witness for `write_items_always_terminates` at the cyclic input with
exactly the bound's fuel. -/
theorem write_items_always_terminates_witness :
    writeFuelBound [] [] cycSds ≤ 4 ∧
    write_items [] [] cycSds 4 [("A")] ≠ none :=
  ⟨by decide, write_items_always_terminates [] [] cycSds [("A")] 4 (by decide)⟩

/-- Claim C4: after a successful closure run, every name in the
dependency set of every compiled (emitted) definition is either a sentinel
base type or present in the returned processed sequence.  (In fact every
such name is present in the returned sequence, sentinels included.) -/
theorem write_items_deps_closed (prim complex : List String)
    (sds : List (String × SD)) (fuel : Nat) (items : List String)
    (log : Log) (res : List String)
    (h : write_items prim complex sds fuel items = some (log, Except.ok res)) :
    ∀ e ∈ log, ∀ d ∈ e.snd, d ∈ sentinelNames ∨ d ∈ res := by
  obtain ⟨p, hw, h2⟩ := write_items_ok_elim prim complex sds fuel items log res h
  have inv := wiStep_inv prim complex sds fuel items [] [] log p hw
  obtain ⟨_, _, ext, hext, hprop⟩ := inv
  rw [List.nil_append] at hext
  intro e he d hd
  right
  rw [h2, mem_pySort]
  have heext : e ∈ ext := hext ▸ he
  exact List.mem_append.mpr (Or.inl ((hprop e heext).2 d hd))

/-- Witness for `write_items_deps_closed`: with root `A` depending on `B`,
the emitted entry for `A` lists dependency `B`, which is in the returned
sequence. -/
theorem write_items_deps_closed_witness :
    write_items [] [] sdsAB 5 [("A")] =
      some ([(("A"), [("B")]), (("B"), [])], Except.ok [("A"), ("B")]) ∧
    ((("B") ∈ sentinelNames) ∨ (("B") ∈ ([("A"), ("B")] : List String))) :=
  ⟨by rfl,
    write_items_deps_closed [] [] sdsAB 5 [("A")]
      [(("A"), [("B")]), (("B"), [])] [("A"), ("B")] (by rfl)
      ((("A"), [("B")])) (by decide) ("B") (by decide)⟩

/-- Claim C10: a sentinel base-type name is never compiled or emitted
(no emission-log entry carries a sentinel name), yet a sentinel occurring
in the root set, or discovered in a compiled definition's dependencies, is
still included in the returned processed sequence. -/
theorem write_items_sentinel_handling (prim complex : List String)
    (sds : List (String × SD)) (fuel : Nat) (items : List String)
    (log : Log) (res : List String)
    (h : write_items prim complex sds fuel items = some (log, Except.ok res)) :
    (∀ e ∈ log, ¬ e.fst ∈ sentinelNames) ∧
    (∀ s ∈ sentinelNames, s ∈ items → s ∈ res) ∧
    (∀ e ∈ log, ∀ d ∈ e.snd, d ∈ sentinelNames → d ∈ res) := by
  obtain ⟨p, hw, h2⟩ := write_items_ok_elim prim complex sds fuel items log res h
  have inv := wiStep_inv prim complex sds fuel items [] [] log p hw
  obtain ⟨_, _, ext, hext, hprop⟩ := inv
  rw [List.nil_append] at hext
  subst hext
  refine ⟨?_, ?_, ?_⟩
  · intro e he
    exact (hprop e he).1
  · intro s _ hs
    rw [h2, mem_pySort]
    exact List.mem_append.mpr (Or.inr hs)
  · intro e he d hd _
    rw [h2, mem_pySort]
    exact List.mem_append.mpr (Or.inl ((hprop e he).2 d hd))

/-- Witness for `write_items_sentinel_handling`: the root set consisting
of the sentinel `Element` alone produces an empty emission log and the
processed sequence `["Element"]`. -/
theorem write_items_sentinel_handling_witness :
    write_items [] [] ([] : List (String × SD)) 2 [("Element")] =
      some ([], Except.ok [("Element")]) ∧
    (("Element") ∈ sentinelNames → ("Element") ∈ [("Element")] →
      ("Element") ∈ ([("Element")] : List String)) :=
  ⟨by rfl,
    fun hs hi =>
      (write_items_sentinel_handling [] [] [] 2 [("Element")] []
        [("Element")] (by rfl)).2.1 ("Element") hs hi⟩

-- ### Root-element processing, evaluated

theorem lookupOD_singleton {α : Type} (k : String) (v : α) :
    lookupOD [(k, v)] k = some v := by
  simp [lookupOD, List.find?]

theorem item_from_singleton (prim complex : List String) (name : String)
    (sd : SD) :
    item_from_structure_definition prim complex name [(name, sd)] =
      sd.elements.foldlM (processElement prim complex name sd)
        ⟨⟨sd.url, name, "FHIRBase", 0, [], [], none⟩, [[]], [], []⟩ := by
  unfold item_from_structure_definition
  rw [lookupOD_singleton]

theorem processElement_root_eq (prim complex : List String) (name : String)
    (sd : SD) (st : CState) (e : ElementDef) (q d : String)
    (hp : e.path = some q) (hq : pathSegs q = [])
    (hdef : e.definition = some d) :
    processElement prim complex name sd st e =
      (if dialectSuper sd = "FHIRBase" ∧ name ≠ "Resource" then
         Except.error (Err.configurationError name)
       else
         Except.ok
           ⟨⟨st.item.url, st.item.name,
             lastSlashSeg (dialectSuper sd), st.item.attrsAddr,
             st.item.required_basic_types, st.item.required_complex_types,
             some d⟩,
            st.heap, st.ics,
            if lastSlashSeg (dialectSuper sd) ∈ prim ∨
                lastSlashSeg (dialectSuper sd) = "object" then st.deps
            else setInsert st.deps (lastSlashSeg (dialectSuper sd))⟩) := by
  unfold processElement dialectSuper
  simp only [hp, hq, hdef, if_true]

/-- Claim C6: the spec's worked example compiles to a tree with root
superclass `DomainResource`, exactly the two top-level attributes `name`
(cardinality 0..*, single type `HumanName`) and `active` (cardinality
0..1, single type `boolean`), and dependency set
`{DomainResource, HumanName}`. -/
theorem compile_example_tree :
    item_from_structure_definition patPrim patComplex ("Pat") patSds =
      Except.ok patRes ∧
    patRes.item.superclass = "DomainResource" ∧
    heapGet patRes.heap patRes.item.attrsAddr =
      [(("name"),
        ⟨"name", some ("0"), some ("*"), AttrType.one (some ("HumanName")), none⟩),
       (("active"),
        ⟨"active", some ("0"), some ("1"), AttrType.one (some ("boolean")), none⟩)] ∧
    (∀ x, x ∈ patRes.deps ↔ (x = "DomainResource" ∨ x = "HumanName")) := by
  refine ⟨rfl, rfl, rfl, ?_⟩
  intro x
  have hd : patRes.deps = [("DomainResource"), ("HumanName")] := rfl
  rw [hd]
  simp

/-- Claim C7 counterexample: with the bare Dialect A base name `FHIRBase`
the compilation fails with a ConfigurationError, while the equivalent
Dialect B input (a `baseDefinition` URL whose final segment is `FHIRBase`)
succeeds and assigns the superclass — so the two dialects do not resolve
identically on this pair. -/
theorem superclass_dialects_fhirbase_cex :
    item_from_structure_definition [] [] ("X") [(("X"), dialectA)] =
      Except.error (Err.configurationError ("X")) ∧
    ∃ r, item_from_structure_definition [] [] ("X") [(("X"), dialectB)] =
        Except.ok r ∧ r.item.superclass = "FHIRBase" :=
  ⟨rfl, ⟨_, rfl, rfl⟩⟩

/-- Claim C7 (amended): for every pair of equivalent inputs — a Dialect A
root with bare base name `N` and a Dialect B root whose `baseDefinition`
URL has final path segment `N` — superclass resolution assigns the
identical name `N` to both, provided the bare name is a genuine segment
(non-empty, no slash) and is not the sentinel `FHIRBase`, on which
Dialect A fails while Dialect B succeeds. -/
theorem superclass_dialects_agree (prim complex : List String)
    (name N u q d : String) (u1 u2 bd1 b2 : Option String)
    (hb2 : b2.getD ("") = "")
    (hq : pathSegs q = [])
    (hN : N ≠ "")
    (hNslash : lastSlashSeg N = N)
    (hNF : N ≠ "FHIRBase")
    (hu : lastSlashSeg u = N) :
    ∃ r1 r2,
      item_from_structure_definition prim complex name
        [(name, ⟨u1, some N, bd1, [⟨some q, some d, none, none, [], none, none⟩]⟩)] =
        Except.ok r1 ∧
      item_from_structure_definition prim complex name
        [(name, ⟨u2, b2, some u, [⟨some q, some d, none, none, [], none, none⟩]⟩)] =
        Except.ok r2 ∧
      r1.item.superclass = N ∧ r2.item.superclass = N := by
  have huF : u ≠ "FHIRBase" := by
    intro h
    rw [h] at hu
    have h2 : lastSlashSeg ("FHIRBase") = "FHIRBase" := rfl
    rw [h2] at hu
    exact hNF hu.symm
  have hd1 : dialectSuper ⟨u1, some N, bd1,
      [⟨some q, some d, none, none, [], none, none⟩]⟩ = N := by
    simp [dialectSuper, hN]
  have hd2 : dialectSuper ⟨u2, b2, some u,
      [⟨some q, some d, none, none, [], none, none⟩]⟩ = u := by
    simp [dialectSuper, hb2]
  rw [item_from_singleton, item_from_singleton]
  simp only [List.foldlM_cons, List.foldlM_nil]
  rw [processElement_root_eq prim complex name _ _ _ q d rfl hq rfl,
    processElement_root_eq prim complex name _ _ _ q d rfl hq rfl]
  rw [hd1, hd2, hNslash, hu]
  rw [if_neg (show ¬ (N = "FHIRBase" ∧ name ≠ "Resource") from
    fun hand => hNF hand.1)]
  rw [if_neg (show ¬ (u = "FHIRBase" ∧ name ≠ "Resource") from
    fun hand => huF hand.1)]
  simp only [bind, Except.bind]
  by_cases hNp : N ∈ prim ∨ N = "object"
  · exact ⟨_, _, rfl, rfl, rfl, rfl⟩
  · exact ⟨_, _, rfl, rfl, rfl, rfl⟩

/-- Witness for `superclass_dialects_agree`: both dialect forms of a
`DomainResource` base resolve to superclass `DomainResource`. -/
theorem superclass_dialects_agree_witness :
    (lastSlashSeg ("DomainResource") = "DomainResource") ∧
    (lastSlashSeg ("http://h/DomainResource") = "DomainResource") ∧
    (∃ r1 r2,
      item_from_structure_definition [] [] ("X")
        [(("X"), ⟨none, some ("DomainResource"), none,
          [⟨some ("X"), some ("doc"), none, none, [], none, none⟩]⟩)] =
        Except.ok r1 ∧
      item_from_structure_definition [] [] ("X")
        [(("X"), ⟨none, none, some ("http://h/DomainResource"),
          [⟨some ("X"), some ("doc"), none, none, [], none, none⟩]⟩)] =
        Except.ok r2 ∧
      r1.item.superclass = "DomainResource" ∧
      r2.item.superclass = "DomainResource") :=
  ⟨rfl, rfl,
    superclass_dialects_agree [] [] ("X") ("DomainResource")
      ("http://h/DomainResource") ("X") ("doc") none none none none
      (by rfl) (by rfl) (by decide) (by rfl) (by decide) (by rfl)⟩

/-- Claim C8: when neither dialect yields a superclass (no `base`, no
`baseDefinition`) and the definition is not the ultimate base resource
`Resource`, compilation fails with a ConfigurationError naming the
definition; in the closure loop that failure aborts the run while the
emission log of the already-processed definitions passes through
unchanged. -/
theorem superclass_unresolvable_error (prim complex : List String)
    (sds : List (String × SD)) (name : String) (sd : SD)
    (rootE : ElementDef) (restEls : List ElementDef) (q d : String)
    (hlk : lookupOD sds name = some sd)
    (hel : sd.elements = rootE :: restEls)
    (hp : rootE.path = some q) (hq : pathSegs q = [])
    (hdef : rootE.definition = some d)
    (hb : sd.base.getD ("") = "")
    (hbd : sd.baseDefinition = none)
    (hn : name ≠ "Resource") :
    item_from_structure_definition prim complex name sds =
      Except.error (Err.configurationError name) ∧
    (∀ descend rest p log, ¬ name ∈ sentinelNames →
      wiLoopG prim complex sds descend (name :: rest) p log =
        LoopSt.fail log (Err.configurationError name)) := by
  have hdsup : dialectSuper sd = "FHIRBase" := by
    simp [dialectSuper, hb, hbd]
  have heval : item_from_structure_definition prim complex name sds =
      sd.elements.foldlM (processElement prim complex name sd)
        ⟨⟨sd.url, name, "FHIRBase", 0, [], [], none⟩, [[]], [], []⟩ := by
    unfold item_from_structure_definition
    rw [hlk]
  have hc : item_from_structure_definition prim complex name sds =
      Except.error (Err.configurationError name) := by
    rw [heval, hel, List.foldlM_cons,
      processElement_root_eq prim complex name sd _ rootE q d hp hq hdef,
      hdsup, if_pos ⟨rfl, hn⟩]
    rfl
  refine ⟨hc, ?_⟩
  intro descend rest p log hs
  simp only [wiLoopG]
  rw [if_neg hs, hc]

/-- Witness for `superclass_unresolvable_error` at a definition `N` with
neither base mechanism present. -/
theorem superclass_unresolvable_error_witness :
    item_from_structure_definition [] [] ("N") noBaseSds =
      Except.error (Err.configurationError ("N")) ∧
    wiLoopG [] [] noBaseSds (fun _ _ _ => none) [("N")]
        [("X")] [(("Y"), [("Z")])] =
      LoopSt.fail [(("Y"), [("Z")])] (Err.configurationError ("N")) :=
  ⟨(superclass_unresolvable_error [] [] noBaseSds ("N") noBaseSD
      (mkRootEl ("N")) [] ("N") ("doc") (by rfl) (by rfl) (by rfl) (by rfl)
      (by rfl) (by rfl) (by rfl) (by decide)).1,
   (superclass_unresolvable_error [] [] noBaseSds ("N") noBaseSD
      (mkRootEl ("N")) [] ("N") ("doc") (by rfl) (by rfl) (by rfl) (by rfl)
      (by rfl) (by rfl) (by rfl) (by decide)).2
      (fun _ _ _ => none) [] [("X")] [(("Y"), [("Z")])] (by decide)⟩

/-- Claim C9: in the type-resolution loop every type reference whose code
is `Reference` is rewritten unconditionally to the literal
`Reference(reference="<profile>")` — with the text `None` substituted when
no profile is bound — and a bare `Reference` code never appears in the
compiled type list. -/
theorem reference_type_rewrite (prim complex : List String)
    (trs : List TypeRef) :
    ((resolveTypes prim complex trs).1.length = trs.length) ∧
    (∀ i tr, trs.get? i = some tr → tr.code = some ("Reference") →
      (resolveTypes prim complex trs).1.get? i =
        some (some (("Reference(reference=\"") ++ tr.profile.getD ("None") ++
          ("\")")))) ∧
    (¬ (some ("Reference")) ∈ (resolveTypes prim complex trs).1) := by
  induction trs with
  | nil =>
    refine ⟨rfl, ?_, by simp [resolveTypes]⟩
    intro i tr h
    simp at h
  | cons tr rest ih =>
    obtain ⟨ihl, ihr, ihm⟩ := ih
    cases hc : tr.code with
    | none =>
      refine ⟨?_, ?_, ?_⟩
      · simp only [resolveTypes, hc, List.length_cons]
        rw [ihl]
      · intro i tr' hget hcode
        cases i with
        | zero =>
          simp only [List.get?_cons_zero, Option.some.injEq] at hget
          rw [← hget, hc] at hcode
          cases hcode
        | succ j =>
          simp only [List.get?_cons_succ] at hget
          simp only [resolveTypes, hc, List.get?_cons_succ]
          exact ihr j tr' hget hcode
      · simp only [resolveTypes, hc, List.mem_cons]
        rintro (h | h)
        · cases h
        · exact ihm h
    | some s =>
      by_cases hr : s = "Reference"
      · subst hr
        refine ⟨?_, ?_, ?_⟩
        · simp only [resolveTypes, hc, if_pos rfl, List.length_cons]
          rw [ihl]
        · intro i tr' hget hcode
          cases i with
          | zero =>
            simp only [List.get?_cons_zero, Option.some.injEq] at hget
            subst hget
            simp only [resolveTypes, hc, if_pos rfl, List.get?_cons_zero, if_true]
          | succ j =>
            simp only [List.get?_cons_succ] at hget
            simp only [resolveTypes, hc, if_pos rfl, List.get?_cons_succ]
            exact ihr j tr' hget hcode
        · simp only [resolveTypes, hc, if_pos rfl, List.mem_cons]
          rintro (h | h)
          · have hinj := Option.some.inj h
            have hlen := congrArg String.length hinj
            rw [String.length_append, String.length_append] at hlen
            have l1 : ("Reference").length = 9 := by decide
            have l2 : ("Reference(reference=\"").length = 21 := by decide
            have l3 : ("\")").length = 2 := by decide
            rw [l1, l2, l3] at hlen
            omega
          · exact ihm h
      · refine ⟨?_, ?_, ?_⟩
        · simp only [resolveTypes, hc, if_neg hr, List.length_cons]
          rw [ihl]
        · intro i tr' hget hcode
          cases i with
          | zero =>
            simp only [List.get?_cons_zero, Option.some.injEq] at hget
            rw [← hget, hc] at hcode
            exact absurd (Option.some.inj hcode) hr
          | succ j =>
            simp only [List.get?_cons_succ] at hget
            simp only [resolveTypes, hc, if_neg hr, List.get?_cons_succ]
            exact ihr j tr' hget hcode
        · simp only [resolveTypes, hc, if_neg hr, List.mem_cons]
          rintro (h | h)
          · exact hr (Option.some.inj h).symm
          · exact ihm h

/-- Witness for `reference_type_rewrite`: a profile-less `Reference`
compiles to the literal text with `None` substituted. -/
theorem reference_type_rewrite_witness :
    (refTrs.get? 0 = some ⟨some ("Reference"), none⟩) ∧
    ((resolveTypes [] [("Reference")] refTrs).1.get? 0 =
      some (some ("Reference(reference=\"None\")"))) :=
  ⟨by rfl,
    (reference_type_rewrite [] [("Reference")] refTrs).2.1 0
      (⟨some ("Reference"), none⟩) (by rfl) (by rfl)⟩

-- ### The inline-composite branch, evaluated

theorem processElement_composite_eq (prim complex : List String)
    (name : String) (sd : SD) (st : CState) (e : ElementDef)
    (P m : String) (pa : Nat)
    (hp : e.path = some P) (hs : pathSegs P ≠ [])
    (hwalk : walkPath st.heap 0 (pathSegs P).dropLast = Except.ok pa)
    (hm : m = "Element" ∨ m = "BackboneElement")
    (hty : resolveAttrType e (resolveTypes prim complex e.types).1 =
      Except.ok (AttrType.one (some m)))
    (hattr : (pyAttrName (lastSegOf (pathSegs P))).data ≠ []) :
    processElement prim complex name sd st e =
      Except.ok
        ⟨⟨st.item.url, st.item.name, st.item.superclass, st.item.attrsAddr,
          (resolveTypes prim complex e.types).2.1.foldl setInsert
            st.item.required_basic_types,
          (resolveTypes prim complex e.types).2.2.1.foldl setInsert
            st.item.required_complex_types,
          st.item.docstring⟩,
         (st.heap ++ [[]]).set pa
           (insertOD (heapGet (st.heap ++ [[]]) pa)
             (pyAttrName (lastSegOf (pathSegs P)))
             ⟨pyAttrName (lastSegOf (pathSegs P)), e.min, e.max,
              AttrType.one (some (capFirst (pyAttrName (lastSegOf (pathSegs P))))),
              some st.heap.length⟩),
         insertOD st.ics (pyAttrName (lastSegOf (pathSegs P)))
           ⟨capFirst (pyAttrName (lastSegOf (pathSegs P))), m, st.heap.length⟩,
         (resolveTypes prim complex e.types).2.2.2.foldl setInsert st.deps⟩ := by
  obtain ⟨c, cs, hcc⟩ := List.exists_cons_of_ne_nil hattr
  unfold processElement
  simp only [hp, if_neg hs, hwalk, hty, hcc]
  rcases hm with rfl | rfl
  · rw [if_pos (Or.inl rfl)]
  · rw [if_pos (Or.inr rfl)]

/-- Claim C3: an element record whose single resolved type is one of the
generic composite markers synthesizes exactly one implicit-class
descriptor — the heap grows by exactly one fresh empty attribute mapping —
whose name is the attribute name with its first letter capitalized and
whose superclass is the marker; the descriptor's `attributes` and the
attribute node's children are the *same* heap cell (`attrsAddr` equals the
node's `childAddr`), so an entry later added through one view is visible
through the other. -/
theorem inline_composite_aliasing (prim complex : List String)
    (name : String) (sd : SD) (st : CState) (e : ElementDef)
    (P m : String) (pa : Nat)
    (hp : e.path = some P) (hs : pathSegs P ≠ [])
    (hwalk : walkPath st.heap 0 (pathSegs P).dropLast = Except.ok pa)
    (hpa : pa < st.heap.length)
    (hm : m = "Element" ∨ m = "BackboneElement")
    (hty : resolveAttrType e (resolveTypes prim complex e.types).1 =
      Except.ok (AttrType.one (some m)))
    (hattr : (pyAttrName (lastSegOf (pathSegs P))).data ≠ []) :
    ∃ st',
      processElement prim complex name sd st e = Except.ok st' ∧
      st'.ics = insertOD st.ics (pyAttrName (lastSegOf (pathSegs P)))
        ⟨capFirst (pyAttrName (lastSegOf (pathSegs P))), m, st.heap.length⟩ ∧
      lookupOD st'.ics (pyAttrName (lastSegOf (pathSegs P))) =
        some ⟨capFirst (pyAttrName (lastSegOf (pathSegs P))), m, st.heap.length⟩ ∧
      st'.heap.length = st.heap.length + 1 ∧
      heapGet st'.heap st.heap.length = [] ∧
      lookupOD (heapGet st'.heap pa) (pyAttrName (lastSegOf (pathSegs P))) =
        some ⟨pyAttrName (lastSegOf (pathSegs P)), e.min, e.max,
          AttrType.one (some (capFirst (pyAttrName (lastSegOf (pathSegs P))))),
          some st.heap.length⟩ := by
  rw [processElement_composite_eq prim complex name sd st e P m pa
    hp hs hwalk hm hty hattr]
  refine ⟨_, rfl, rfl, lookupOD_insertOD_self _ _ _, ?_, ?_, ?_⟩
  · simp [List.length_set, List.length_append]
  · show ((st.heap ++ [[]]).set pa _).getD st.heap.length [] = []
    rw [getD_set_ne _ _ _ _ _ (Nat.ne_of_lt hpa)]
    exact getD_append_len _ _ _
  · show lookupOD (((st.heap ++ [[]]).set pa _).getD pa []) _ = _
    rw [getD_set_self _ _ _ _ (by simp [List.length_append]; omega)]
    exact lookupOD_insertOD_self _ _ _

/-- Witness for `inline_composite_aliasing`: the `contact` attribute of
type `BackboneElement` synthesizes the `Contact` descriptor sharing heap
cell 1 with the node's children. -/
theorem inline_composite_aliasing_witness :
    (xContact.path = some ("X.contact")) ∧
    (walkPath st0X.heap 0 (pathSegs ("X.contact")).dropLast = Except.ok 0) ∧
    (∃ st',
      processElement [("string")] [] ("X")
        ⟨none, some ("DomainResource"), none, []⟩ st0X xContact =
        Except.ok st' ∧
      st'.ics = insertOD st0X.ics (pyAttrName (lastSegOf (pathSegs ("X.contact"))))
        ⟨capFirst (pyAttrName (lastSegOf (pathSegs ("X.contact")))),
         "BackboneElement", st0X.heap.length⟩ ∧
      lookupOD st'.ics (pyAttrName (lastSegOf (pathSegs ("X.contact")))) =
        some ⟨capFirst (pyAttrName (lastSegOf (pathSegs ("X.contact")))),
          "BackboneElement", st0X.heap.length⟩ ∧
      st'.heap.length = st0X.heap.length + 1 ∧
      heapGet st'.heap st0X.heap.length = [] ∧
      lookupOD (heapGet st'.heap 0) (pyAttrName (lastSegOf (pathSegs ("X.contact")))) =
        some ⟨pyAttrName (lastSegOf (pathSegs ("X.contact"))), xContact.min,
          xContact.max,
          AttrType.one (some (capFirst (pyAttrName (lastSegOf (pathSegs ("X.contact")))))),
          some st0X.heap.length⟩) :=
  ⟨rfl, rfl,
    inline_composite_aliasing [("string")] [] ("X")
      (⟨none, some ("DomainResource"), none, []⟩) st0X xContact
      ("X.contact") ("BackboneElement") 0 (by rfl) (by decide) (by rfl)
      (by decide) (Or.inr rfl) (by rfl) (by decide)⟩

/-- Claim C5 counterexample: the element with final path segment `for` —
a reserved identifier of the target language — compiles to the attribute
name `for` with no escape suffix (`for_` is absent), and the segment
`a[x]b`, whose choice marker is not trailing, still has the marker
removed, compiling to `ab`. -/
theorem attr_reserved_word_cex :
    (∃ r, item_from_structure_definition [("boolean")] [] ("X") reservedSds =
        Except.ok r ∧
      lookupOD (heapGet r.heap 0) ("for") =
        some ⟨"for", none, none, AttrType.one (some ("boolean")), none⟩ ∧
      lookupOD (heapGet r.heap 0) ("for_") = none ∧
      lookupOD (heapGet r.heap 0) ("ab") =
        some ⟨"ab", none, none, AttrType.one (some ("boolean")), none⟩ ∧
      lookupOD (heapGet r.heap 0) ("a[x]b") = none) ∧
    ("for") ∈ pythonKeywords :=
  ⟨⟨_, rfl, rfl, rfl, rfl, rfl⟩, by decide⟩

/-- Claim C5 (amended): the compiled attribute name is the final path
segment with *every* occurrence of the choice marker `[x]` removed, and
the deterministic underscore escape is appended exactly when the stripped
name is `def` or `class` — other reserved identifiers of the target
language are left unescaped.  Whenever a non-root element record is
processed successfully, the attribute is stored under that name and its
`name` field equals it. -/
theorem processElement_attr_naming (prim complex : List String)
    (name : String) (sd : SD) (st st' : CState) (e : ElementDef)
    (P : String) (pa : Nat)
    (hp : e.path = some P) (hs : pathSegs P ≠ [])
    (hwalk : walkPath st.heap 0 (pathSegs P).dropLast = Except.ok pa)
    (hpa : pa < st.heap.length)
    (h : processElement prim complex name sd st e = Except.ok st') :
    ∃ props : Props,
      lookupOD (heapGet st'.heap pa) (pyAttrName (lastSegOf (pathSegs P))) =
        some props ∧
      props.name = pyAttrName (lastSegOf (pathSegs P)) := by
  unfold processElement at h
  simp only [hp, if_neg hs, hwalk] at h
  split at h
  · cases h
  · next ty hty =>
    split at h
    · split at h
      · cases h
      · cases h
        refine ⟨⟨pyAttrName (lastSegOf (pathSegs P)), e.min, e.max,
          AttrType.one (some (capFirst (pyAttrName (lastSegOf (pathSegs P))))),
          some st.heap.length⟩, ?_, rfl⟩
        show lookupOD (((st.heap ++ [[]]).set pa _).getD pa []) _ = _
        rw [getD_set_self _ _ _ _ (by simp [List.length_append]; omega)]
        exact lookupOD_insertOD_self _ _ _
    · cases h
      refine ⟨⟨pyAttrName (lastSegOf (pathSegs P)), e.min, e.max, ty,
        none⟩, ?_, rfl⟩
      show lookupOD ((st.heap.set pa _).getD pa []) _ = _
      rw [getD_set_self _ _ _ _ hpa]
      exact lookupOD_insertOD_self _ _ _

/-- Witness for `processElement_attr_naming` at the reserved-word element
`elFor`. -/
theorem processElement_attr_naming_witness :
    (elFor.path = some ("X.for")) ∧
    (pathSegs ("X.for") ≠ []) ∧
    (walkPath st0X.heap 0 (pathSegs ("X.for")).dropLast = Except.ok 0) ∧
    (0 < st0X.heap.length) ∧
    (processElement [("boolean")] [] ("X") reservedSD st0X elFor =
      Except.ok stForRes) ∧
    (∃ props : Props,
      lookupOD (heapGet stForRes.heap 0) (pyAttrName (lastSegOf (pathSegs ("X.for")))) =
        some props ∧
      props.name = pyAttrName (lastSegOf (pathSegs ("X.for")))) :=
  ⟨rfl, by decide, rfl, by decide, rfl,
    processElement_attr_naming [("boolean")] [] ("X") reservedSD st0X
      stForRes elFor ("X.for") 0 (by rfl) (by decide) (by rfl) (by decide)
      (by rfl)⟩
